import Mathlib

/-!
Shallow embedding of the Pix-Ruom storage core: the `FileManager` file
pipeline (validation, path/name generation) from `src/utils/fileManager`,
the Telegram pseudo-storage adapter (`src/utils/storage/TelegramStorage.js`),
and the provider-config validation (`src/utils/config/storageServices.js`).

JavaScript strings are modelled as `List Char` where character-level
processing matters (split, regex-style replacement, case mapping) and as
Lean `String`s where only equality/prefix tests occur (mime types,
messages).  JavaScript numbers are modelled as exact rationals (`ℚ`) for
the size arithmetic and as `ℕ` for timestamps and byte counts.
`localStorage` is modelled as an explicit index value threaded through the
Telegram operations.  Randomness (`Math.random()`) is modelled by passing
the fractional base-36 digit string that `Math.random().toString(36)`
would print.
-/

namespace PixRuom

/-! ### JavaScript string primitives -/

/-- Model of JavaScript `s.split(sep)` for a single-character separator:
splits at every occurrence of `sep`, keeping empty segments, and returns
`[s]` (one segment) when `sep` does not occur.  `"".split(sep)` is `[""]`. -/
def splitOnChar (sep : Char) : List Char → List (List Char)
  | [] => [[]]
  | c :: rest =>
    let r := splitOnChar sep rest
    if c = sep then [] :: r else (c :: r.headD []) :: r.tail

/-- Model of `s.split('.')[0]`: the segment before the first dot. -/
def jsSplitFirst (l : List Char) : List Char :=
  (splitOnChar '.' l).headD []

/-- Model of `s.split('.').pop()`: the segment after the last dot. -/
def jsSplitPop (l : List Char) : List Char :=
  (splitOnChar '.' l).getLastD []

/-- Model of JavaScript `String.prototype.replace` with a plain-string
pattern: replaces only the first occurrence of `pat`. -/
def replaceFirstL (pat rep : List Char) : List Char → List Char
  | [] => []
  | c :: rest =>
    if pat.isPrefixOf (c :: rest) then rep ++ (c :: rest).drop pat.length
    else c :: replaceFirstL pat rep rest

/-- Model of JavaScript `s.startsWith(pre)` (a character-prefix test; the
built-in `String.startsWith` is byte-based and opaque to evaluation). -/
def jsStartsWith (s pre : String) : Bool :=
  pre.data.isPrefixOf s.data

/-- Model of `String(n).padStart(2, '0')`. -/
def pad2 (n : Nat) : List Char :=
  let s := (Nat.repr n).data
  List.replicate (2 - s.length) '0' ++ s

/-! ### FileManager: filename sanitization (`_generateFilename`) -/

/-- Character class `[a-zA-Z0-9-_.]` of `_generateFilename`'s sanitizing
regex. -/
def isAllowedChar (c : Char) : Bool :=
  ('a' ≤ c ∧ c ≤ 'z') ∨ ('A' ≤ c ∧ c ≤ 'Z') ∨ ('0' ≤ c ∧ c ≤ '9') ∨
    c = '-' ∨ c = '_' ∨ c = '.'

/-- Step 1 of sanitization: `.replace(/[^a-zA-Z0-9-_.]/g, '-')`. -/
def replaceBadChar (c : Char) : Char :=
  if isAllowedChar c then c else '-'

/-- Global replacement of every run of the character `x` by a single `x`
(keeping the last one of each run); this is what the regexes of step 2 of
the sanitization (over `-`) and of `_normalizePath` (over `/`) do. -/
def collapseRuns (x : Char) : List Char → List Char
  | [] => []
  | [c] => [c]
  | a :: b :: rest =>
    if a = x ∧ b = x then collapseRuns x (b :: rest)
    else a :: collapseRuns x (b :: rest)

/-- Drop the trailing run of dashes (the `-+$` half of step 3). -/
def dropTrailingDashes : List Char → List Char
  | [] => []
  | c :: rest =>
    match dropTrailingDashes rest with
    | [] => if c = '-' then [] else [c]
    | t => c :: t

/-- Step 3 of sanitization: `.replace(/^-+|-+$/g, '')` — drop the leading
and the trailing run of dashes. -/
def trimDashes (l : List Char) : List Char :=
  dropTrailingDashes (l.dropWhile (· = '-'))

/-- The full base-name sanitization of the `original` naming rule:
replace disallowed characters, collapse dash runs, trim boundary dashes. -/
def sanitizeBase (l : List Char) : List Char :=
  trimDashes (collapseRuns '-' (l.map replaceBadChar))

/-- Model of `Math.random().toString(36)` given the fractional base-36
digits that JavaScript would print: `0` prints as `"0"`, any other value
in `[0,1)` prints as `"0."` followed by its (trailing-zero-free,
non-empty) digit string. -/
def jsRandomToString36 (frac : List Char) : List Char :=
  if frac = [] then ['0'] else '0' :: '.' :: frac

/-- Base-36 fractional digits are lowercase alphanumeric. -/
def isBase36Digit (c : Char) : Bool :=
  ('0' ≤ c ∧ c ≤ '9') ∨ ('a' ≤ c ∧ c ≤ 'z')

/-- Model of `Math.random().toString(36).substring(2, 10)`. -/
def randomBasename (frac : List Char) : List Char :=
  ((jsRandomToString36 frac).drop 2).take 8

/-- Model of `FileManager._generateFilename`.  `nameRule` is the
configured rule string (the `switch` falls through to the `original`
branch for any unrecognized value), `nowMs` models `Date.now()` and
`randFrac` models the random source as in `jsRandomToString36`. -/
def generateFilename (nameRule : String) (nowMs : Nat) (randFrac : List Char)
    (originalFilename : List Char) : List Char :=
  let ext := (jsSplitPop originalFilename).map Char.toLower
  let basename :=
    if nameRule = "timestamp" then (Nat.repr nowMs).data
    else if nameRule = "random" then randomBasename randFrac
    else sanitizeBase (jsSplitFirst originalFilename)
  basename ++ '.' :: ext

/-! ### FileManager: path generation (`generatePath`, `_normalizePath`) -/

/-- Calendar date as read from `new Date()`; `month` is already 1-based
(the source computes `date.getMonth() + 1`). -/
structure JsDate where
  year : Nat
  month : Nat
  day : Nat

/-- The three `.replace` calls of `generatePath`, in source order
(`{year}`, then `{month}`, then `{day}`); each replaces only the first
occurrence, as JavaScript `replace` with a string pattern does. -/
def substDate (tpl : List Char) (d : JsDate) : List Char :=
  replaceFirstL "{day}".data (pad2 d.day)
    (replaceFirstL "{month}".data (pad2 d.month)
      (replaceFirstL "{year}".data (Nat.repr d.year).data tpl))

/-- Second half of `_normalizePath`: `.replace(/^\//, '')`. -/
def stripLeadingSlash : List Char → List Char
  | [] => []
  | c :: rest => if c = '/' then rest else c :: rest

/-- Third half of `_normalizePath`: `.replace(/\/$/, '')`. -/
def stripTrailingSlash (l : List Char) : List Char :=
  if l.getLast? = some '/' then l.dropLast else l

/-- Model of `FileManager._normalizePath`: collapse slash runs, then drop
one leading and one trailing slash (after collapsing there is at most one
of each). -/
def normalizePath (l : List Char) : List Char :=
  stripTrailingSlash (stripLeadingSlash (collapseRuns '/' l))

/-- The path/naming part of the manager configuration. -/
structure ManagerConfig where
  uploadPath : List Char
  nameRule : String
  allowedTypes : List String
  maxFileSize : ℚ

/-- Model of `FileManager.generatePath`: substitute the date into the
template, derive the filename per the naming rule, join with `/` and
normalize. -/
def generatePath (cfg : ManagerConfig) (d : JsDate) (nowMs : Nat)
    (randFrac : List Char) (filename : List Char) : List Char :=
  normalizePath
    (substDate cfg.uploadPath d ++
      '/' :: generateFilename cfg.nameRule nowMs randFrac filename)

/-! ### FileManager: validation (`validateFile`, `processFile`) -/

/-- An uploadable file: name, mime type (`file.type`) and byte size. -/
structure UploadFile where
  name : List Char
  mime : String
  size : Nat

/-- The size-limit message `` `文件大小超过限制(${this.config.maxFileSize}MB)` ``. -/
def sizeLimitMessage (limit : ℚ) : String :=
  "文件大小超过限制(" ++ toString limit ++ "MB)"

/-- The generic unsupported-format message. -/
def unsupportedFormatMessage : String := "不支持的文件格式"

/-- Model of `FileManager.validateFile`: `none` models the JavaScript
return value `true`, `some msg` models an error-message return.  The size
check (`file.size / (1024 * 1024) > maxFileSize`, exact rational
arithmetic) comes before the allowed-type check. -/
def validateFile (cfg : ManagerConfig) (file : UploadFile) : Option String :=
  if (file.size : ℚ) / (1024 * 1024) > cfg.maxFileSize then
    some (sizeLimitMessage cfg.maxFileSize)
  else if ¬ cfg.allowedTypes.contains file.mime then
    some unsupportedFormatMessage
  else none

/-- Result shape of `processFile`: `{ file, error }`. -/
structure ProcessResult where
  file : Option UploadFile
  error : Option String

/-- Model of `FileManager.processFile`.  The compression collaborator is
an opaque parameter (`Except` models a possibly-throwing async call); it
is consulted only when validation passed and the mime type starts with
`image/`. -/
def processFile (cfg : ManagerConfig)
    (compress : UploadFile → Except String UploadFile)
    (file : UploadFile) : ProcessResult :=
  match validateFile cfg file with
  | some msg => ⟨none, some msg⟩
  | none =>
    if jsStartsWith file.mime "image/" then
      match compress file with
      | .ok compressed => ⟨some compressed, none⟩
      | .error e => ⟨none, some e⟩
    else ⟨some file, none⟩

/-! ### Telegram adapter: local index, delete, listObjects -/

/-- An `IndexRecord` of the Telegram local index.  `lastModified` is
stored in the source as an ISO-8601 string and compared through
`new Date(...)`; since ISO-8601 order coincides with timestamp order it
is modelled directly as a millisecond timestamp. -/
structure IndexRecord where
  key : String
  url : String
  fileId : String
  filePath : String
  lastModified : Nat
  size : Nat
deriving DecidableEq, Repr

/-- The projected shape returned by `listObjects`. -/
structure ListedObject where
  key : String
  url : String
  lastModified : Nat
  size : Nat
deriving DecidableEq, Repr

/-- Projection `item => ({ key, url, lastModified, size })` of
`listObjects`. -/
def projectRecord (r : IndexRecord) : ListedObject :=
  ⟨r.key, r.url, r.lastModified, r.size⟩

/-- Model of `TelegramStorage.delete`: keep exactly the records whose key
differs from the argument and save the result.  The source performs no
network request here (it only rewrites the local index and logs a
warning). -/
def tgDelete (key : String) (index : List IndexRecord) : List IndexRecord :=
  index.filter (fun item => item.key ≠ key)

/-- Descending-`lastModified` comparison used by `listObjects`'s sort
(`(a, b) => new Date(b.lastModified) - new Date(a.lastModified)`). -/
def newerFirst (a b : IndexRecord) : Bool :=
  b.lastModified ≤ a.lastModified

/-- Model of `TelegramStorage.listObjects`.  The default argument is the
empty string, which is falsy in JavaScript, so an absent or empty
argument skips the filter; the filtered records are sorted descending by
`lastModified` (stable, as ES2019 `Array.prototype.sort` is) and then
projected. -/
def tgListObjects (pre : String) (index : List IndexRecord) :
    List ListedObject :=
  let filtered :=
    if pre = "" then index
    else index.filter (fun item => jsStartsWith item.key pre)
  (filtered.mergeSort newerFirst).map projectRecord

/-! ### Telegram adapter: endpoint selection (`_getSendFunction`) -/

/-- An endpoint choice `{ url, type }` of `_getSendFunction`; the `type`
property (the multipart field name) is called `field` here. -/
structure SendFunction where
  url : String
  field : String
deriving DecidableEq, Repr

/-- The extension as `_getSendFunction` computes it:
`fileName.split('.').pop().toLowerCase()`. -/
def extOf (fileName : List Char) : String :=
  ⟨(jsSplitPop fileName).map Char.toLower⟩

/-- Model of `TelegramStorage._getSendFunction`: the extension is the
lower-cased segment after the last dot of the file name; the cascade is
animation, then document for SVG/ICO, then photo/video/audio by mime
prefix, then document as fallback. -/
def getSendFunction (fileType : String) (fileName : List Char) :
    SendFunction :=
  let ext : String := extOf fileName
  if ext = "gif" ∨ ext = "webp" ∨ fileType = "image/gif" then
    ⟨"sendAnimation", "animation"⟩
  else if fileType = "image/svg+xml" ∨ fileType = "image/x-icon" then
    ⟨"sendDocument", "document"⟩
  else if jsStartsWith fileType "image/" then ⟨"sendPhoto", "photo"⟩
  else if jsStartsWith fileType "video/" then ⟨"sendVideo", "video"⟩
  else if jsStartsWith fileType "audio/" then ⟨"sendAudio", "audio"⟩
  else ⟨"sendDocument", "document"⟩

/-! ### Provider-config catalog and validation (`storageServices.js`) -/

/-- One entry of a service's `fields` array.  `fieldType` models the
optional `type: 'password'` property; `required` defaults to `false` as
an absent property does in the source. -/
structure StorageField where
  key : String
  label : String
  icon : String
  required : Bool := false
  placeholder : String
  fieldType : Option String := none
deriving DecidableEq, Repr

/-- One service entry of `STORAGE_SERVICES`. -/
structure StorageService where
  type : String
  label : String
  icon : String
  description : String
  fields : List StorageField
deriving DecidableEq, Repr

/-- The `STORAGE_SERVICES` catalog, keyed by type tag. -/
def STORAGE_SERVICES : List (String × StorageService) :=
  [("s3",
    { type := "s3", label := "S3兼容存储", icon := "Cloudy",
      description := "S3和三方兼容的存储服务",
      fields :=
        [{ key := "endpoint", label := "Endpoint", icon := "Link",
           placeholder := "使用其他兼容S3的存储服务时填写" },
         { key := "region", label := "Region", icon := "Location",
           required := true, placeholder := "如：us-east-1" },
         { key := "bucket", label := "Bucket", icon := "Box",
           required := true, placeholder := "存储桶名称" },
         { key := "accessKey", label := "AccessKey", icon := "Key",
           required := true, placeholder := "Access Key ID" },
         { key := "secretKey", label := "SecretKey", icon := "Lock",
           fieldType := some "password", required := true,
           placeholder := "Secret Access Key" }] }),
   ("oss",
    { type := "oss", label := "阿里云OSS", icon := "Cloudy",
      description := "阿里云OSS对象存储服务",
      fields :=
        [{ key := "endpoint", label := "Endpoint", icon := "Location",
           required := true, placeholder := "如：oss-cn-beijing.aliyuncs.com" },
         { key := "bucket", label := "Bucket", icon := "Box",
           required := true, placeholder := "存储桶名称" },
         { key := "accessKey", label := "AccessKey", icon := "Key",
           required := true, placeholder := "AccessKey ID" },
         { key := "secretKey", label := "SecretKey", icon := "Lock",
           fieldType := some "password", required := true,
           placeholder := "AccessKey Secret" }] }),
   ("cos",
    { type := "cos", label := "腾讯云COS", icon := "Cloudy",
      description := "腾讯云COS对象存储服务",
      fields :=
        [{ key := "region", label := "Region", icon := "Location",
           required := true, placeholder := "如：ap-guangzhou" },
         { key := "bucket", label := "Bucket", icon := "Box",
           required := true, placeholder := "存储桶名称" },
         { key := "secretId", label := "Secret ID", icon := "Key",
           required := true, placeholder := "SecretID" },
         { key := "secretKey", label := "SecretKey", icon := "Lock",
           fieldType := some "password", required := true,
           placeholder := "SecretKey" }] }),
   ("telegram",
    { type := "telegram", label := "Telegram", icon := "ChatDotRound",
      description := "使用 Telegram Bot 作为存储后端",
      fields :=
        [{ key := "botToken", label := "Bot Token", icon := "Key",
           required := true, placeholder := "从 @BotFather 获取的 Bot Token" },
         { key := "chatId", label := "Chat ID", icon := "ChatDotSquare",
           required := true, placeholder := "频道或群组 ID，如：-1001234567890" },
         { key := "proxyUrl", label := "API代理域名", icon := "Link",
           placeholder := "可选：API请求代理，如 api.telegram.org 的反代" },
         { key := "customDomain", label := "自定义访问域名", icon := "View",
           placeholder := "可选：图片展示用的域名，如 tg.yourdomain.com" }] })]

/-- Model of `getRequiredFields`: the keys of the service's `required`
fields, `[]` for an unknown type. -/
def getRequiredFields (type : String) : List String :=
  match STORAGE_SERVICES.lookup type with
  | none => []
  | some service => (service.fields.filter (·.required)).map (·.key)

/-- Result shape `{ isValid, message }` of `validateStorageConfig`. -/
structure ValidationResult where
  isValid : Bool
  message : String
deriving DecidableEq, Repr

/-- A provider config map: JavaScript property access `config[field]`
returns `undefined` (here `none`) for an absent key. -/
def ConfigMap : Type := String → Option String

/-- Model of JavaScript `s.trim()`: drop leading and trailing whitespace
(the built-in `String.trim` is byte-based and opaque to evaluation). -/
def jsTrim (l : List Char) : List Char :=
  ((l.dropWhile Char.isWhitespace).reverse.dropWhile Char.isWhitespace).reverse

/-- Model of the JavaScript test `!config[field]?.trim()`: true when the
property is absent or blank after trimming. -/
def fieldBlank (cfg : ConfigMap) (k : String) : Bool :=
  match cfg k with
  | none => true
  | some v => jsTrim v.data = []

/-- Model of `validateStorageConfig`.  An unknown type tag fails first;
an absent (`none`) config or one whose required fields are all blank is
valid; otherwise every required field must be non-blank. -/
def validateStorageConfig (type : String) (config : Option ConfigMap) :
    ValidationResult :=
  if (STORAGE_SERVICES.lookup type).isNone then ⟨false, "无效的存储类型"⟩
  else
    let requiredFields := getRequiredFields type
    match config with
    | none => ⟨true, "配置为空"⟩
    | some cfg =>
      if requiredFields.all (fun field => fieldBlank cfg field) then
        ⟨true, "配置为空"⟩
      else if 0 < (requiredFields.filter (fun field => fieldBlank cfg field)).length then
        ⟨false, "请完整填写所有必填项，或清空所有配置"⟩
      else ⟨true, "验证通过"⟩

/-! ### Object-aliasing model for the static catalog accessors

`getSupportedStorages` returns `{ ...STORAGE_SERVICES }`.  A spread copy
allocates a fresh top-level object whose property values — in particular
the references to the per-service objects — are shared with the original.
To reason about this, the catalog is also embedded into a small heap
model with explicit references: `Heap` is an address-indexed store of
objects, property values are strings, booleans or references. -/

/-- A JavaScript value stored in an object property. -/
inductive JsVal where
  | vstr (s : String)
  | vbool (b : Bool)
  | vref (addr : Nat)
deriving DecidableEq, Repr

/-- A JavaScript object: an ordered list of property bindings. -/
abbrev JsObj := List (String × JsVal)

/-- A heap: objects indexed by their address (allocation appends). -/
abbrev Heap := List JsObj

/-- Dereference an address (a dangling address reads as `{}`). -/
def objAt (h : Heap) (a : Nat) : JsObj := h.getD a []

/-- Property read `o[k]`. -/
def getProp (o : JsObj) (k : String) : Option JsVal := o.lookup k

/-- Property write on an object value: `o[k] = v`. -/
def setPropObj (o : JsObj) (k : String) (v : JsVal) : JsObj :=
  if (o.lookup k).isSome then
    o.map (fun p => if p.1 = k then (k, v) else p)
  else o ++ [(k, v)]

/-- Property assignment through a reference: mutates the object stored at
address `a` in the heap. -/
def assignProp (h : Heap) (a : Nat) (k : String) (v : JsVal) : Heap :=
  h.set a (setPropObj (objAt h a) k v)

/-- Allocate a fresh object at the next free address. -/
def alloc (h : Heap) (o : JsObj) : Heap × Nat := (h ++ [o], h.length)

/-- Heap image of one field object of a service's `fields` array. -/
def fieldObj (f : StorageField) : JsObj :=
  [("key", .vstr f.key), ("label", .vstr f.label), ("icon", .vstr f.icon)] ++
    (match f.fieldType with | some t => [("type", .vstr t)] | none => []) ++
    (if f.required then [("required", .vbool true)] else []) ++
    [("placeholder", .vstr f.placeholder)]

/-- Allocate the field objects of a service, returning their addresses. -/
def allocFields (h : Heap) (fs : List StorageField) : Heap × List Nat :=
  fs.foldl
    (fun acc f =>
      let (h1, a) := alloc acc.1 (fieldObj f)
      (h1, acc.2 ++ [a]))
    (h, [])

/-- Allocate an array object (index keys mapped to element references). -/
def allocArray (h : Heap) (refs : List Nat) : Heap × Nat :=
  alloc h (refs.enum.map fun p => (toString p.1, JsVal.vref p.2))

/-- Allocate one service entry: its field objects, its `fields` array and
the service object itself. -/
def allocService (h : Heap) (s : StorageService) : Heap × Nat :=
  let (h1, fieldRefs) := allocFields h s.fields
  let (h2, arr) := allocArray h1 fieldRefs
  alloc h2
    [("type", .vstr s.type), ("label", .vstr s.label),
     ("icon", .vstr s.icon), ("description", .vstr s.description),
     ("fields", .vref arr)]

/-- Build the heap holding the `STORAGE_SERVICES` module constant and
return the address of the catalog object. -/
def allocCatalog : Heap × Nat :=
  let built := STORAGE_SERVICES.foldl
    (fun acc entry =>
      let (h1, a) := allocService acc.1 entry.2
      (h1, acc.2 ++ [(entry.1, JsVal.vref a)]))
    (([] : Heap), ([] : JsObj))
  alloc built.1 built.2

/-- The heap state at module load. -/
def catalogHeap : Heap := allocCatalog.1

/-- The address of the shared `STORAGE_SERVICES` object. -/
def catalogAddr : Nat := allocCatalog.2

/-- Model of `FileManager.getSupportedStorages`: the spread copy
`{ ...STORAGE_SERVICES }` — a fresh top-level object carrying the same
property bindings (hence the same service references). -/
def getSupportedStorages (h : Heap) : Heap × Nat :=
  alloc h (objAt h catalogAddr)

/-- Read `root[svc].label` through the heap: the label of a service entry
as an observer of the shared catalog sees it. -/
def readServiceLabel (h : Heap) (root : Nat) (svc : String) : Option JsVal :=
  match getProp (objAt h root) svc with
  | some (.vref a) => getProp (objAt h a) "label"
  | _ => none

/-- The address stored in the copy's `svc` property (0 if absent). -/
def serviceAddrOf (h : Heap) (root : Nat) (svc : String) : Nat :=
  match getProp (objAt h root) svc with
  | some (.vref a) => a
  | _ => 0

/-! ### The claim's reading of the `original` naming rule (for C2)

Modelled from the spec: the claim pairs "the original base name" with an
extension taken after the final dot, i.e. the base name is everything
before the final dot.  The source instead uses `split('.')[0]`, the
segment before the first dot.  This definition follows the claim's words
so the two can be compared. -/

/-- Everything before the final dot (the whole name when dotless). -/
def beforeLastDot (l : List Char) : List Char :=
  if '.' ∈ l then ((l.reverse.dropWhile (· ≠ '.')).tail).reverse else l

/-- The destination filename as claim C2 reads it: the sanitized
before-final-dot base name, a dot, and the lower-cased after-final-dot
extension. -/
def claimedOriginalFilename (l : List Char) : List Char :=
  sanitizeBase (beforeLastDot l) ++
    '.' :: ((l.reverse.takeWhile (· ≠ '.')).reverse.map Char.toLower)

/-! ### Auxiliary predicates and concrete inputs used by the theorems -/

/-- No two adjacent occurrences of `x` (used to state that collapsing is
complete: normalized paths contain no `//`, sanitized names no `--`). -/
def noDoubleRun (x : Char) : List Char → Bool
  | a :: b :: rest => !(a = x && b = x) && noDoubleRun x (b :: rest)
  | _ => true

/-- A manager configuration with a 1 MB limit that only accepts PNGs. -/
def c1Config : ManagerConfig :=
  { uploadPath := "{year}/{month}/{day}".data, nameRule := "original",
    allowedTypes := ["image/png"], maxFileSize := 1 }

/-- A 1 020 000-byte PNG: over 1 MB by the spec's decimal division
(1.02 > 1) but under it by the source's binary division
(1020000 / 1048576 ≈ 0.97). -/
def c1File : UploadFile :=
  { name := "a.png".data, mime := "image/png", size := 1020000 }

/-- A 2 MiB PNG, over the 1 MB limit under either division. -/
def c1BigFile : UploadFile :=
  { name := "b.png".data, mime := "image/png", size := 2097152 }

/-! ### Lemmas about `splitOnChar` -/

theorem splitOnChar_ne_nil (sep : Char) (l : List Char) :
    splitOnChar sep l ≠ [] := by
  cases l with
  | nil => simp [splitOnChar]
  | cons c rest => simp only [splitOnChar]; split <;> simp

theorem headD_splitOnChar (sep : Char) (l : List Char) :
    (splitOnChar sep l).headD [] = l.takeWhile (· ≠ sep) := by
  induction l with
  | nil => simp [splitOnChar]
  | cons c rest ih =>
    simp only [splitOnChar, List.takeWhile_cons]
    by_cases h : c = sep
    · rw [if_pos h]
      simp [h]
    · rw [if_neg h, List.headD_cons, ih]
      simp [h]

theorem splitOnChar_of_not_mem {sep : Char} {l : List Char} (h : sep ∉ l) :
    splitOnChar sep l = [l] := by
  induction l with
  | nil => rfl
  | cons c rest ih =>
    simp only [List.mem_cons, not_or] at h
    simp only [splitOnChar, ih h.2]
    rw [if_neg (fun hc => h.1 hc.symm)]
    simp

theorem two_le_length_splitOnChar {sep : Char} {l : List Char}
    (h : sep ∈ l) : 2 ≤ (splitOnChar sep l).length := by
  induction l with
  | nil => cases h
  | cons c rest ih =>
    simp only [splitOnChar]
    by_cases hc : c = sep
    · rw [if_pos hc]
      have := splitOnChar_ne_nil sep rest
      have : 1 ≤ (splitOnChar sep rest).length :=
        Nat.one_le_iff_ne_zero.mpr (by simpa using this)
      simpa using this
    · have hrest : sep ∈ rest := by
        rcases List.mem_cons.mp h with h1 | h1
        · exact absurd h1.symm hc
        · exact h1
      rw [if_neg hc]
      have h2 := ih hrest
      have : (splitOnChar sep rest).tail.length =
          (splitOnChar sep rest).length - 1 := List.length_tail _
      simp only [List.length_cons, this]
      omega

theorem getLastD_cons_of_ne_nil (x : List Char) {r : List (List Char)}
    (hr : r ≠ []) : (x :: r).getLastD [] = r.getLastD [] := by
  cases r with
  | nil => exact absurd rfl hr
  | cons a as =>
    simp [List.getLastD_eq_getLast?, List.getLast?_cons_cons]

theorem takeWhile_append_last {α : Type} {p : α → Bool} {a : α}
    (h : p a = false) (xs : List α) :
    List.takeWhile p (xs ++ [a]) = List.takeWhile p xs := by
  induction xs with
  | nil => simp [List.takeWhile_cons, h]
  | cons x xs ih => simp only [List.cons_append, List.takeWhile_cons, ih]

theorem getLastD_splitOnChar (sep : Char) (l : List Char) :
    (splitOnChar sep l).getLastD [] =
      (l.reverse.takeWhile (· ≠ sep)).reverse := by
  induction l with
  | nil => simp [splitOnChar]
  | cons c rest ih =>
    simp only [List.reverse_cons]
    by_cases h : c = sep
    · subst h
      have hstep : splitOnChar c (c :: rest) = [] :: splitOnChar c rest := by
        simp [splitOnChar]
      rw [hstep, takeWhile_append_last (by simp),
        getLastD_cons_of_ne_nil _ (splitOnChar_ne_nil c rest)]
      exact ih
    · by_cases hm : sep ∈ rest
      · have h2 := two_le_length_splitOnChar (l := rest) hm
        simp only [splitOnChar, if_neg h]
        have htail : (splitOnChar sep rest).tail ≠ [] := by
          intro hnil
          have := List.length_tail (splitOnChar sep rest)
          rw [hnil] at this
          simp at this
          omega
        rw [getLastD_cons_of_ne_nil _ htail]
        have hdecomp :
            splitOnChar sep rest =
              (splitOnChar sep rest).headD [] :: (splitOnChar sep rest).tail := by
          cases hs : splitOnChar sep rest with
          | nil => exact absurd hs (splitOnChar_ne_nil sep rest)
          | cons a as => simp
        have hrw : (splitOnChar sep rest).getLastD [] =
            (splitOnChar sep rest).tail.getLastD [] := by
          conv_lhs => rw [hdecomp]
          exact getLastD_cons_of_ne_nil _ htail
        rw [← hrw]
        have hstop : List.takeWhile (fun x => decide (x ≠ sep))
            (rest.reverse ++ [c]) =
            List.takeWhile (fun x => decide (x ≠ sep)) rest.reverse := by
          rw [List.takeWhile_append]
          have hne : List.takeWhile (fun x => decide (x ≠ sep)) rest.reverse ≠
              rest.reverse := by
            intro heq
            have := List.takeWhile_eq_self_iff.mp heq
            have hsepmem : sep ∈ rest.reverse := by simpa using hm
            have := this sep hsepmem
            simp at this
          exact if_neg (fun hlen => hne (by
            have hpre := List.takeWhile_prefix
              (l := rest.reverse) (p := fun x => decide (x ≠ sep))
            exact List.IsPrefix.eq_of_length hpre hlen))
        rw [hstop]
        exact ih
      · have hrw := splitOnChar_of_not_mem hm
        simp only [splitOnChar, hrw, if_neg h]
        simp only [List.headD_cons, List.tail_cons]
        have hall : List.takeWhile (fun x => decide (x ≠ sep)) rest.reverse =
            rest.reverse :=
          List.takeWhile_eq_self_iff.mpr
            (fun x hx => by
              simp only [decide_eq_true_eq]
              intro hxe
              exact hm (by subst hxe; simpa using hx))
        rw [List.takeWhile_append]
        rw [if_pos (by rw [hall])]
        have hc : List.takeWhile (fun x => decide (x ≠ sep)) [c] = [c] := by
          simp [List.takeWhile_cons, h]
        rw [hc]
        simp [List.getLastD_eq_getLast?]

/-! ### Lemmas about run collapsing -/

theorem collapseRuns_cons (x b : Char) (rest : List Char) :
    ∃ t, collapseRuns x (b :: rest) = b :: t := by
  induction rest generalizing b with
  | nil => exact ⟨[], rfl⟩
  | cons c rs ih =>
    by_cases h : b = x ∧ c = x
    · obtain ⟨t, ht⟩ := ih c
      refine ⟨t, ?_⟩
      show collapseRuns x (b :: c :: rs) = b :: t
      simp only [collapseRuns, if_pos h, ht]
      rw [h.1, h.2]
    · exact ⟨collapseRuns x (c :: rs), by
        show collapseRuns x (b :: c :: rs) = _
        simp only [collapseRuns, if_neg h]⟩

theorem noDoubleRun_cons_cons {x a b : Char} {l : List Char} :
    noDoubleRun x (a :: b :: l) =
      (!(a = x && b = x) && noDoubleRun x (b :: l)) := rfl

theorem noDoubleRun_tail {x a : Char} {l : List Char}
    (h : noDoubleRun x (a :: l) = true) : noDoubleRun x l = true := by
  cases l with
  | nil => rfl
  | cons b rs =>
    rw [noDoubleRun_cons_cons, Bool.and_eq_true] at h
    exact h.2

theorem noDoubleRun_pair {x a b : Char} {l : List Char}
    (h : noDoubleRun x (a :: b :: l) = true) : ¬(a = x ∧ b = x) := by
  rw [noDoubleRun_cons_cons, Bool.and_eq_true] at h
  intro hab
  have := h.1
  rw [hab.1, hab.2] at this
  simp at this

theorem noDoubleRun_collapseRuns (x : Char) (l : List Char) :
    noDoubleRun x (collapseRuns x l) = true := by
  induction l with
  | nil => rfl
  | cons b rest ih =>
    cases rest with
    | nil => rfl
    | cons c rs =>
      by_cases h : b = x ∧ c = x
      · show noDoubleRun x (collapseRuns x (b :: c :: rs)) = true
        simp only [collapseRuns, if_pos h]
        exact ih
      · show noDoubleRun x (collapseRuns x (b :: c :: rs)) = true
        simp only [collapseRuns, if_neg h]
        obtain ⟨t, ht⟩ := collapseRuns_cons x c rs
        rw [ht]
        have hndr : noDoubleRun x (c :: t) = true := by rw [← ht]; exact ih
        rw [noDoubleRun_cons_cons, Bool.and_eq_true]
        refine ⟨?_, hndr⟩
        by_cases hb : b = x
        · by_cases hc : c = x
          · exact absurd ⟨hb, hc⟩ h
          · simp [hb, hc]
        · simp [hb]

theorem collapseRuns_eq_self {x : Char} {l : List Char}
    (h : noDoubleRun x l = true) : collapseRuns x l = l := by
  induction l with
  | nil => rfl
  | cons b rest ih =>
    cases rest with
    | nil => rfl
    | cons c rs =>
      have hno : ¬(b = x ∧ c = x) := noDoubleRun_pair h
      show collapseRuns x (b :: c :: rs) = b :: c :: rs
      simp only [collapseRuns, if_neg hno]
      rw [ih (noDoubleRun_tail h)]

theorem mem_collapseRuns {x d : Char} {l : List Char}
    (h : d ∈ collapseRuns x l) : d ∈ l := by
  induction l with
  | nil => simp [collapseRuns] at h
  | cons b rest ih =>
    cases rest with
    | nil => simpa [collapseRuns] using h
    | cons c rs =>
      by_cases hb : b = x ∧ c = x
      · have hmem : d ∈ collapseRuns x (c :: rs) := by
          simpa only [collapseRuns, if_pos hb] using h
        exact List.mem_cons_of_mem _ (ih hmem)
      · have hmem : d ∈ b :: collapseRuns x (c :: rs) := by
          simpa only [collapseRuns, if_neg hb] using h
        rcases List.mem_cons.mp hmem with h1 | h1
        · exact h1 ▸ List.mem_cons_self _ _
        · exact List.mem_cons_of_mem _ (ih h1)

/-! ### Lemmas about dash trimming -/

theorem dropTrailingDashes_cons (c : Char) (rest : List Char) :
    dropTrailingDashes (c :: rest) =
      match dropTrailingDashes rest with
      | [] => if c = '-' then [] else [c]
      | t => c :: t := rfl

theorem dropTrailingDashes_shape (c : Char) (rest : List Char) :
    dropTrailingDashes (c :: rest) = [] ∨
      ∃ t, dropTrailingDashes (c :: rest) = c :: t := by
  rw [dropTrailingDashes_cons]
  cases hm : dropTrailingDashes rest with
  | nil =>
    by_cases hc : c = '-'
    · exact Or.inl (by simp [hc])
    · exact Or.inr ⟨[], by simp [hc]⟩
  | cons a as => exact Or.inr ⟨a :: as, rfl⟩

theorem getLast?_dropTrailingDashes (m : List Char) :
    (dropTrailingDashes m).getLast? ≠ some '-' := by
  induction m with
  | nil => simp [dropTrailingDashes]
  | cons c rest ih =>
    rw [dropTrailingDashes_cons]
    cases hm : dropTrailingDashes rest with
    | nil =>
      by_cases hc : c = '-'
      · simp [hc]
      · simp [hc]
    | cons a as =>
      rw [List.getLast?_cons_cons]
      rw [hm] at ih
      exact ih

theorem dropTrailingDashes_eq_self {m : List Char}
    (h : m.getLast? ≠ some '-') : dropTrailingDashes m = m := by
  induction m with
  | nil => rfl
  | cons c rest ih =>
    rw [dropTrailingDashes_cons]
    cases rest with
    | nil =>
      have hc : c ≠ '-' := by simpa using h
      simp [dropTrailingDashes, hc]
    | cons r rs =>
      have hr : dropTrailingDashes (r :: rs) = r :: rs := by
        apply ih
        rwa [List.getLast?_cons_cons] at h
      rw [hr]

theorem mem_dropTrailingDashes {d : Char} {m : List Char}
    (h : d ∈ dropTrailingDashes m) : d ∈ m := by
  induction m with
  | nil => simp [dropTrailingDashes] at h
  | cons c rest ih =>
    rw [dropTrailingDashes_cons] at h
    cases hm : dropTrailingDashes rest with
    | nil =>
      rw [hm] at h
      by_cases hc : c = '-'
      · rw [if_pos hc] at h
        simp at h
      · rw [if_neg hc] at h
        have h1 := List.mem_singleton.mp h
        exact h1 ▸ List.mem_cons_self _ _
    | cons a as =>
      rw [hm] at h
      rcases List.mem_cons.mp h with h1 | h1
      · exact h1 ▸ List.mem_cons_self _ _
      · exact List.mem_cons_of_mem _ (ih (hm ▸ h1))

theorem noDoubleRun_dropTrailingDashes {x : Char} {m : List Char}
    (h : noDoubleRun x m = true) :
    noDoubleRun x (dropTrailingDashes m) = true := by
  induction m with
  | nil => rfl
  | cons c rest ih =>
    rw [dropTrailingDashes_cons]
    cases hm : dropTrailingDashes rest with
    | nil =>
      by_cases hc : c = '-'
      · simp [hc, noDoubleRun]
      · simp [hc, noDoubleRun]
    | cons a as =>
      have htail : noDoubleRun x (a :: as) = true := by
        rw [← hm]; exact ih (noDoubleRun_tail h)
      have hhead : rest.head? = some a := by
        cases rest with
        | nil => simp [dropTrailingDashes] at hm
        | cons r rs =>
          rcases dropTrailingDashes_shape r rs with hnil | ⟨t, ht⟩
          · rw [hnil] at hm; cases hm
          · rw [ht] at hm
            cases hm
            rfl
      cases rest with
      | nil => simp at hhead
      | cons r rs =>
        have hra : r = a := by simpa using hhead
        subst hra
        rw [noDoubleRun_cons_cons, Bool.and_eq_true]
        refine ⟨?_, htail⟩
        have hpair := noDoubleRun_pair h
        by_cases hcx : c = x
        · by_cases hrx : r = x
          · exact absurd ⟨hcx, hrx⟩ hpair
          · simp [hcx, hrx]
        · simp [hcx]

/-! ### Lemmas about leading-run dropping (`dropWhile`) -/

theorem head?_dropWhile_ne (x : Char) (l : List Char) :
    ∀ c, (l.dropWhile (· = x)).head? = some c → c ≠ x := by
  intro c hc
  have h := List.head?_dropWhile_not (fun a => decide (a = x)) l
  rw [hc] at h
  simpa using h

theorem dropWhile_eq_self_of_head {x : Char} {l : List Char}
    (h : l.head? ≠ some x) : l.dropWhile (· = x) = l := by
  cases l with
  | nil => rfl
  | cons c rest =>
    have hc : c ≠ x := fun he => h (by simp [he])
    simp [List.dropWhile_cons, hc]

theorem noDoubleRun_dropWhile {x : Char} {p : Char → Bool} {l : List Char}
    (h : noDoubleRun x l = true) :
    noDoubleRun x (l.dropWhile p) = true := by
  induction l with
  | nil => rfl
  | cons c rest ih =>
    rw [List.dropWhile_cons]
    by_cases hp : p c = true
    · rw [if_pos hp]
      exact ih (noDoubleRun_tail h)
    · rw [if_neg hp]
      exact h

/-! ### Lemmas about path normalization -/

theorem bnot_pair_of_not {x a b : Char} (h : ¬(a = x ∧ b = x)) :
    (!(a = x && b = x)) = true := by
  by_cases ha : a = x
  · by_cases hb : b = x
    · exact absurd ⟨ha, hb⟩ h
    · simp [ha, hb]
  · simp [ha]

theorem noDoubleRun_cons_of {x a b : Char} {l : List Char}
    (hpair : ¬(a = x ∧ b = x)) (h : noDoubleRun x (b :: l) = true) :
    noDoubleRun x (a :: b :: l) = true := by
  rw [noDoubleRun_cons_cons, Bool.and_eq_true]
  exact ⟨bnot_pair_of_not hpair, h⟩

theorem noDoubleRun_stripLeadingSlash {m : List Char}
    (h : noDoubleRun '/' m = true) :
    noDoubleRun '/' (stripLeadingSlash m) = true := by
  cases m with
  | nil => rfl
  | cons c rest =>
    show noDoubleRun '/' (if c = '/' then rest else c :: rest) = true
    by_cases hc : c = '/'
    · rw [if_pos hc]
      exact noDoubleRun_tail h
    · rw [if_neg hc]
      exact h

theorem head?_stripLeadingSlash_ne {m : List Char}
    (h : noDoubleRun '/' m = true) :
    (stripLeadingSlash m).head? ≠ some '/' := by
  cases m with
  | nil => simp [stripLeadingSlash]
  | cons c rest =>
    show (if c = '/' then rest else c :: rest).head? ≠ some '/'
    by_cases hc : c = '/'
    · rw [if_pos hc]
      cases rest with
      | nil => simp
      | cons r rs =>
        have hpair := noDoubleRun_pair h
        intro hr
        have : r = '/' := by simpa using hr
        exact hpair ⟨hc, this⟩
    · rw [if_neg hc]
      intro habs
      exact hc (by simpa using habs)

theorem noDoubleRun_dropLast {x : Char} {m : List Char}
    (h : noDoubleRun x m = true) : noDoubleRun x m.dropLast = true := by
  induction m with
  | nil => rfl
  | cons a rest ih =>
    cases rest with
    | nil => rfl
    | cons b rs =>
      rw [List.dropLast_cons₂]
      cases rs with
      | nil => rfl
      | cons c rs2 =>
        rw [List.dropLast_cons₂]
        refine noDoubleRun_cons_of (noDoubleRun_pair h) ?_
        have := ih (noDoubleRun_tail h)
        rwa [List.dropLast_cons₂] at this

theorem noDoubleRun_stripTrailingSlash {m : List Char}
    (h : noDoubleRun '/' m = true) :
    noDoubleRun '/' (stripTrailingSlash m) = true := by
  unfold stripTrailingSlash
  split
  · exact noDoubleRun_dropLast h
  · exact h

theorem head?_dropLast_ne {x : Char} {m : List Char}
    (h : m.head? ≠ some x) : m.dropLast.head? ≠ some x := by
  cases m with
  | nil => simp
  | cons a rest =>
    cases rest with
    | nil => simp
    | cons b rs =>
      rw [List.dropLast_cons₂]
      simpa using h

theorem getLast?_dropLast_ne_of_run {x : Char} {m : List Char}
    (h : noDoubleRun x m = true) (hlast : m.getLast? = some x) :
    m.dropLast.getLast? ≠ some x := by
  induction m with
  | nil => simp at hlast
  | cons a rest ih =>
    cases rest with
    | nil => simp
    | cons b rs =>
      rw [List.dropLast_cons₂]
      cases rs with
      | nil =>
        have hb : b = x := by
          rw [List.getLast?_cons_cons, List.getLast?_singleton] at hlast
          simpa using hlast
        have hpair := noDoubleRun_pair h
        rw [List.dropLast_single]
        rw [List.getLast?_singleton]
        intro ha
        exact hpair ⟨by simpa using ha, hb⟩
      | cons c rs2 =>
        rw [List.dropLast_cons₂, List.getLast?_cons_cons]
        have hlast2 : (b :: c :: rs2).getLast? = some x := by
          rwa [List.getLast?_cons_cons] at hlast
        have := ih (noDoubleRun_tail h) hlast2
        rwa [List.dropLast_cons₂] at this

theorem getLast?_stripTrailingSlash_ne {m : List Char}
    (h : noDoubleRun '/' m = true) :
    (stripTrailingSlash m).getLast? ≠ some '/' := by
  unfold stripTrailingSlash
  by_cases hl : m.getLast? = some '/'
  · rw [if_pos hl]
    exact getLast?_dropLast_ne_of_run h hl
  · rw [if_neg hl]
    exact hl

theorem head?_stripTrailingSlash_ne {x : Char} {m : List Char}
    (h : m.head? ≠ some x) : (stripTrailingSlash m).head? ≠ some x := by
  unfold stripTrailingSlash
  split
  · exact head?_dropLast_ne h
  · exact h

theorem normalizePath_props (l : List Char) :
    noDoubleRun '/' (normalizePath l) = true ∧
      (normalizePath l).head? ≠ some '/' ∧
      (normalizePath l).getLast? ≠ some '/' := by
  have h1 := noDoubleRun_collapseRuns '/' l
  have h2 := noDoubleRun_stripLeadingSlash h1
  exact ⟨noDoubleRun_stripTrailingSlash h2,
    head?_stripTrailingSlash_ne (head?_stripLeadingSlash_ne h1),
    getLast?_stripTrailingSlash_ne h2⟩

/-! ### Lemmas about sanitization -/

theorem mem_sanitizeBase_allowed {c : Char} {l : List Char}
    (h : c ∈ sanitizeBase l) : isAllowedChar c = true := by
  unfold sanitizeBase trimDashes at h
  have h1 := mem_dropTrailingDashes h
  have h2 : c ∈ collapseRuns '-' (l.map replaceBadChar) :=
    (List.dropWhile_sublist _).mem h1
  have h3 := mem_collapseRuns h2
  obtain ⟨d, _, hd⟩ := List.mem_map.mp h3
  by_cases hall : isAllowedChar d = true
  · rw [← hd]
    simp [replaceBadChar, hall]
  · rw [← hd]
    simp [replaceBadChar, hall]
    decide

theorem map_replaceBadChar_self {l : List Char}
    (h : ∀ c ∈ l, isAllowedChar c = true) :
    l.map replaceBadChar = l := by
  induction l with
  | nil => rfl
  | cons c rest ih =>
    have hc := h c (List.mem_cons_self _ _)
    have hrest := ih (fun d hd => h d (List.mem_cons_of_mem _ hd))
    simp [replaceBadChar, hc, hrest]

theorem noDoubleRun_sanitizeBase (l : List Char) :
    noDoubleRun '-' (sanitizeBase l) = true :=
  noDoubleRun_dropTrailingDashes
    (noDoubleRun_dropWhile (noDoubleRun_collapseRuns '-' _))

theorem head?_sanitizeBase_ne (l : List Char) :
    (sanitizeBase l).head? ≠ some '-' := by
  unfold sanitizeBase trimDashes
  cases hm : (collapseRuns '-' (l.map replaceBadChar)).dropWhile (· = '-') with
  | nil => simp [dropTrailingDashes]
  | cons c rest =>
    have hcne : c ≠ '-' := head?_dropWhile_ne '-' _ c (by rw [hm]; rfl)
    rcases dropTrailingDashes_shape c rest with hnil | ⟨t, ht⟩
    · rw [hnil]
      simp
    · rw [ht]
      intro habs
      exact hcne (by simpa using habs)

theorem getLast?_sanitizeBase_ne (l : List Char) :
    (sanitizeBase l).getLast? ≠ some '-' :=
  getLast?_dropTrailingDashes _

theorem sanitizeBase_idem (l : List Char) :
    sanitizeBase (sanitizeBase l) = sanitizeBase l := by
  conv_lhs => rw [sanitizeBase]
  rw [map_replaceBadChar_self (fun c hc => mem_sanitizeBase_allowed hc),
    collapseRuns_eq_self (noDoubleRun_sanitizeBase l)]
  show dropTrailingDashes ((sanitizeBase l).dropWhile (· = '-')) = _
  rw [dropWhile_eq_self_of_head (head?_sanitizeBase_ne l)]
  exact dropTrailingDashes_eq_self (getLast?_sanitizeBase_ne l)

/-! ## Claim theorems -/

/-- C3: for every local index state and key, `delete(key)` succeeds (it is
a total function, defined also when no record matches), removes every
index record whose key equals the given key while leaving all other
records unchanged and in order, is a no-op when no record matches, and a
subsequent `listObjects()` (with any prefix) never returns a record with
that key.  The operation is pure on the local index: the embedding of the
source's `delete` makes no remote call. -/
theorem C3_delete_local_only (index : List IndexRecord) (key : String) :
    (∀ r : IndexRecord, r ∈ tgDelete key index ↔ r ∈ index ∧ r.key ≠ key) ∧
    (tgDelete key index).Sublist index ∧
    ((∀ r ∈ index, r.key ≠ key) → tgDelete key index = index) ∧
    (∀ pre : String, ∀ o ∈ tgListObjects pre (tgDelete key index),
      o.key ≠ key) := by
  refine ⟨?_, List.filter_sublist _, ?_, ?_⟩
  · intro r
    unfold tgDelete
    rw [List.mem_filter]
    simp
  · intro h
    unfold tgDelete
    rw [List.filter_eq_self]
    intro a ha
    simpa using h a ha
  · intro pre o ho
    unfold tgListObjects at ho
    obtain ⟨r, hr, hro⟩ := List.mem_map.mp ho
    rw [List.mem_mergeSort] at hr
    have hrdel : r ∈ tgDelete key index := by
      by_cases hp : pre = ""
      · rw [if_pos hp] at hr
        exact hr
      · rw [if_neg hp] at hr
        exact (List.mem_filter.mp hr).1
    have hkey : r.key ≠ key := by
      unfold tgDelete at hrdel
      have := (List.mem_filter.mp hrdel).2
      simpa using this
    rw [← hro]
    simpa [projectRecord] using hkey

/-- Witness for C3 at a concrete index and a key that is not present. -/
theorem C3_delete_local_only_witness :
    tgDelete "missing"
        [({key := "a/1", url := "u", fileId := "f", filePath := "p",
           lastModified := 5, size := 1} : IndexRecord)] =
      [({key := "a/1", url := "u", fileId := "f", filePath := "p",
         lastModified := 5, size := 1} : IndexRecord)] :=
  (C3_delete_local_only
    [({key := "a/1", url := "u", fileId := "f", filePath := "p",
       lastModified := 5, size := 1} : IndexRecord)] "missing").2.2.1
    (by decide)

/-- C6: `listObjects` returns exactly the projections of the index records
whose key starts with the prefix (all records when the prefix argument is
the falsy empty default), ordered by `lastModified` descending. -/
theorem C6_list_filter_sort (pre : String) (index : List IndexRecord) :
    (tgListObjects pre index).Perm
      ((if pre = "" then index
        else index.filter (fun r => jsStartsWith r.key pre)).map
        projectRecord) ∧
    List.Pairwise (fun a b => b.lastModified ≤ a.lastModified)
      (tgListObjects pre index) := by
  constructor
  · exact List.Perm.map projectRecord (List.mergeSort_perm _ _)
  · unfold tgListObjects
    rw [List.pairwise_map]
    have hs := @List.sorted_mergeSort _ newerFirst
      (fun a b c hab hbc => by
        unfold newerFirst at *
        simp only [decide_eq_true_eq] at *
        omega)
      (fun a b => by
        unfold newerFirst
        rcases Nat.le_total b.lastModified a.lastModified with h | h <;>
          simp [h])
      (if pre = "" then index
       else index.filter (fun r => jsStartsWith r.key pre))
    refine hs.imp ?_
    intro a b h
    simpa [newerFirst, projectRecord] using h

/-- C4: the Telegram send endpoint is chosen by the documented priority
cascade (animation for gif/webp extensions or gif mime; document for
SVG/ICO; then photo, video, audio by mime prefix; document otherwise),
with the five concrete examples of the claim. -/
theorem C4_endpoint_selection (fileType : String) (fileName : List Char) :
    ((extOf fileName = "gif" ∨ extOf fileName = "webp" ∨
        fileType = "image/gif") →
      getSendFunction fileType fileName = ⟨"sendAnimation", "animation"⟩) ∧
    (¬(extOf fileName = "gif" ∨ extOf fileName = "webp" ∨
        fileType = "image/gif") →
      (fileType = "image/svg+xml" ∨ fileType = "image/x-icon") →
      getSendFunction fileType fileName = ⟨"sendDocument", "document"⟩) ∧
    (¬(extOf fileName = "gif" ∨ extOf fileName = "webp" ∨
        fileType = "image/gif") →
      ¬(fileType = "image/svg+xml" ∨ fileType = "image/x-icon") →
      jsStartsWith fileType "image/" = true →
      getSendFunction fileType fileName = ⟨"sendPhoto", "photo"⟩) ∧
    (¬(extOf fileName = "gif" ∨ extOf fileName = "webp" ∨
        fileType = "image/gif") →
      ¬(fileType = "image/svg+xml" ∨ fileType = "image/x-icon") →
      jsStartsWith fileType "image/" = false →
      jsStartsWith fileType "video/" = true →
      getSendFunction fileType fileName = ⟨"sendVideo", "video"⟩) ∧
    (¬(extOf fileName = "gif" ∨ extOf fileName = "webp" ∨
        fileType = "image/gif") →
      ¬(fileType = "image/svg+xml" ∨ fileType = "image/x-icon") →
      jsStartsWith fileType "image/" = false →
      jsStartsWith fileType "video/" = false →
      jsStartsWith fileType "audio/" = true →
      getSendFunction fileType fileName = ⟨"sendAudio", "audio"⟩) ∧
    (¬(extOf fileName = "gif" ∨ extOf fileName = "webp" ∨
        fileType = "image/gif") →
      ¬(fileType = "image/svg+xml" ∨ fileType = "image/x-icon") →
      jsStartsWith fileType "image/" = false →
      jsStartsWith fileType "video/" = false →
      jsStartsWith fileType "audio/" = false →
      getSendFunction fileType fileName = ⟨"sendDocument", "document"⟩) ∧
    getSendFunction "image/gif" "a.gif".data =
      ⟨"sendAnimation", "animation"⟩ ∧
    getSendFunction "image/svg+xml" "a.svg".data =
      ⟨"sendDocument", "document"⟩ ∧
    getSendFunction "image/png" "a.png".data = ⟨"sendPhoto", "photo"⟩ ∧
    getSendFunction "video/mp4" "a.mp4".data = ⟨"sendVideo", "video"⟩ ∧
    getSendFunction "application/zip" "a.zip".data =
      ⟨"sendDocument", "document"⟩ := by
  refine ⟨?_, ?_, ?_, ?_, ?_, ?_, by decide, by decide, by decide,
    by decide, by decide⟩
  · intro h1
    simp only [getSendFunction]
    rw [if_pos h1]
  · intro h1 h2
    simp only [getSendFunction]
    rw [if_neg h1, if_pos h2]
  · intro h1 h2 h3
    simp only [getSendFunction]
    rw [if_neg h1, if_neg h2, if_pos h3]
  · intro h1 h2 h3 h4
    simp only [getSendFunction]
    rw [if_neg h1, if_neg h2, if_neg (by simp [h3]), if_pos h4]
  · intro h1 h2 h3 h4 h5
    simp only [getSendFunction]
    rw [if_neg h1, if_neg h2, if_neg (by simp [h3]),
      if_neg (by simp [h4]), if_pos h5]
  · intro h1 h2 h3 h4 h5
    simp only [getSendFunction]
    rw [if_neg h1, if_neg h2, if_neg (by simp [h3]),
      if_neg (by simp [h4]), if_neg (by simp [h5])]

/-- Witness for C4: the photo branch at the claim's PNG example. -/
theorem C4_endpoint_selection_witness :
    getSendFunction "image/png" "a.png".data = ⟨"sendPhoto", "photo"⟩ :=
  (C4_endpoint_selection "image/png" "a.png".data).2.2.1
    (by decide) (by decide) (by decide)

/-- C5: `validateStorageConfig` rejects an unrecognized type tag
regardless of config contents; for a known type an absent config or one
whose required fields are all blank is valid, a config with at least one
required field filled and at least one required field blank is invalid
with the fill-all-or-clear-all message, and a config with all required
fields filled is valid. -/
theorem C5_config_validation (type : String) (config : Option ConfigMap) :
    (STORAGE_SERVICES.lookup type = none →
      (validateStorageConfig type config).isValid = false) ∧
    (STORAGE_SERVICES.lookup type ≠ none → config = none →
      validateStorageConfig type config = ⟨true, "配置为空"⟩) ∧
    (∀ cfg : ConfigMap, STORAGE_SERVICES.lookup type ≠ none →
      config = some cfg →
      (∀ k ∈ getRequiredFields type, fieldBlank cfg k = true) →
      validateStorageConfig type config = ⟨true, "配置为空"⟩) ∧
    (∀ cfg : ConfigMap, STORAGE_SERVICES.lookup type ≠ none →
      config = some cfg →
      (∃ k ∈ getRequiredFields type, fieldBlank cfg k = false) →
      (∃ k ∈ getRequiredFields type, fieldBlank cfg k = true) →
      validateStorageConfig type config =
        ⟨false, "请完整填写所有必填项，或清空所有配置"⟩) ∧
    (∀ cfg : ConfigMap, STORAGE_SERVICES.lookup type ≠ none →
      config = some cfg →
      (∀ k ∈ getRequiredFields type, fieldBlank cfg k = false) →
      (validateStorageConfig type config).isValid = true) := by
  refine ⟨?_, ?_, ?_, ?_, ?_⟩
  · intro hnone
    unfold validateStorageConfig
    rw [if_pos (by simp [hnone])]
  · intro hsome hcfg
    unfold validateStorageConfig
    rw [if_neg (by simpa [Option.isNone_iff_eq_none] using hsome), hcfg]
  · intro cfg hsome hcfg hblank
    unfold validateStorageConfig
    rw [if_neg (by simpa [Option.isNone_iff_eq_none] using hsome), hcfg]
    dsimp only
    have hall : (getRequiredFields type).all
        (fun field => fieldBlank cfg field) = true :=
      List.all_eq_true.mpr hblank
    rw [if_pos hall]
  · intro cfg hsome hcfg hfilled hblank
    unfold validateStorageConfig
    rw [if_neg (by simpa [Option.isNone_iff_eq_none] using hsome), hcfg]
    dsimp only
    obtain ⟨kf, hkf, hkfval⟩ := hfilled
    obtain ⟨kb, hkb, hkbval⟩ := hblank
    have hnall : ¬((getRequiredFields type).all
        (fun field => fieldBlank cfg field) = true) := by
      intro hall
      have := List.all_eq_true.mp hall kf hkf
      rw [hkfval] at this
      cases this
    rw [if_neg hnall]
    have hmem : kb ∈ (getRequiredFields type).filter
        (fun field => fieldBlank cfg field) :=
      List.mem_filter.mpr ⟨hkb, hkbval⟩
    rw [if_pos (List.length_pos.mpr (List.ne_nil_of_mem hmem))]
  · intro cfg hsome hcfg hfilled
    unfold validateStorageConfig
    rw [if_neg (by simpa [Option.isNone_iff_eq_none] using hsome), hcfg]
    dsimp only
    by_cases hall : (getRequiredFields type).all
        (fun field => fieldBlank cfg field) = true
    · rw [if_pos hall]
    · rw [if_neg hall]
      have hnil : (getRequiredFields type).filter
          (fun field => fieldBlank cfg field) = [] := by
        rw [List.filter_eq_nil_iff]
        intro k hk
        rw [hfilled k hk]
        simp
      rw [if_neg (by rw [hnil]; simp)]

/-- Witness for C5: an S3 config with only `region` filled is invalid
with the fill-all-or-clear-all message. -/
theorem C5_config_validation_witness :
    validateStorageConfig "s3"
        (some (fun k => if k = "region" then some "us-east-1" else none)) =
      ⟨false, "请完整填写所有必填项，或清空所有配置"⟩ :=
  (C5_config_validation "s3"
    (some (fun k => if k = "region" then some "us-east-1" else none))).2.2.2.1
    (fun k => if k = "region" then some "us-east-1" else none)
    (by decide) rfl
    (by exact ⟨"region", by decide, by decide⟩)
    (by exact ⟨"bucket", by decide, by decide⟩)

/-- C1 counterexample: a 1 020 000-byte file exceeds a 1 MB limit under
the claim's decimal division `sizeBytes / 1e6`, yet `validateFile`
accepts it (the source divides by `1024 * 1024`). -/
theorem C1_counterexample :
    (1020000 : ℚ) / 1000000 > 1 ∧ validateFile c1Config c1File = none := by
  constructor
  · norm_num
  · unfold validateFile c1Config c1File
    rw [if_neg (by norm_num), if_neg (by decide)]

/-- C1 (amended: the divisor is `1024 * 1024`, not `1e6`): `validateFile`
returns the size-limit message stating the configured limit exactly when
`sizeBytes / (1024 * 1024) > maxFileSizeMB`; when the size check passes it
returns the generic unsupported-format message exactly if the mime type is
not allowed, and `true` otherwise; and whenever validation fails,
`processFile` returns that message and never consults the compression
collaborator (the result is the same for every `compress` function). -/
theorem C1_validate_and_process (cfg : ManagerConfig) (file : UploadFile) :
    (validateFile cfg file = some (sizeLimitMessage cfg.maxFileSize) ↔
      (file.size : ℚ) / (1024 * 1024) > cfg.maxFileSize) ∧
    (¬((file.size : ℚ) / (1024 * 1024) > cfg.maxFileSize) →
      cfg.allowedTypes.contains file.mime = false →
      validateFile cfg file = some unsupportedFormatMessage) ∧
    (¬((file.size : ℚ) / (1024 * 1024) > cfg.maxFileSize) →
      cfg.allowedTypes.contains file.mime = true →
      validateFile cfg file = none) ∧
    (∀ msg, validateFile cfg file = some msg →
      ∀ compress : UploadFile → Except String UploadFile,
        processFile cfg compress file = ⟨none, some msg⟩) := by
  have hne : sizeLimitMessage cfg.maxFileSize ≠ unsupportedFormatMessage := by
    intro h
    have hlen := congrArg String.length h
    rw [sizeLimitMessage, unsupportedFormatMessage,
      String.length_append, String.length_append] at hlen
    have h1 : ("文件大小超过限制(" : String).length = 9 := by decide
    have h2 : ("MB)" : String).length = 3 := by decide
    have h3 : ("不支持的文件格式" : String).length = 8 := by decide
    omega
  refine ⟨⟨?_, ?_⟩, ?_, ?_, ?_⟩
  · intro h
    by_cases hsz : (file.size : ℚ) / (1024 * 1024) > cfg.maxFileSize
    · exact hsz
    · exfalso
      unfold validateFile at h
      rw [if_neg hsz] at h
      by_cases hty : cfg.allowedTypes.contains file.mime = true
      · rw [if_neg (not_not_intro hty)] at h
        cases h
      · rw [if_pos hty] at h
        exact hne (Option.some.inj h).symm
  · intro hsz
    unfold validateFile
    rw [if_pos hsz]
  · intro hsz hty
    unfold validateFile
    rw [if_neg hsz,
      if_pos (show ¬cfg.allowedTypes.contains file.mime = true by
        rw [hty]; simp)]
  · intro hsz hty
    unfold validateFile
    rw [if_neg hsz, if_neg (not_not_intro hty)]
  · intro msg hmsg compress
    unfold processFile
    rw [hmsg]

/-- Witness for C1 at a 2 MiB file over the 1 MB limit: validation
returns the size message and `processFile` short-circuits with it. -/
theorem C1_validate_and_process_witness :
    validateFile c1Config c1BigFile = some (sizeLimitMessage 1) ∧
    processFile c1Config (fun f => Except.ok f) c1BigFile =
      ⟨none, some (sizeLimitMessage 1)⟩ := by
  have h := C1_validate_and_process c1Config c1BigFile
  have hval : validateFile c1Config c1BigFile = some (sizeLimitMessage 1) :=
    h.1.mpr (by norm_num [c1Config, c1BigFile])
  exact ⟨hval, h.2.2.2 (sizeLimitMessage 1) hval (fun f => Except.ok f)⟩

/-- C9 counterexample: `Math.random() = 0.5` prints as `"0.i"` in base
36, so `substring(2, 10)` yields the single character `"i"`, not an
8-character token; the claim fails for this value of the random source. -/
theorem C9_counterexample :
    (['i'].all isBase36Digit = true) ∧
    jsRandomToString36 ['i'] = "0.i".data ∧
    (randomBasename ['i']).length = 1 ∧
    (randomBasename ['i']).length ≠ 8 ∧
    generateFilename "random" 0 ['i'] "a.png".data = "i.png".data := by
  decide

/-- C9 (amended: the token has at most 8 characters, exactly 8 only when
the fractional base-36 expansion has at least 8 digits): under
`nameRule = random` the derived base name is `substring(2, 10)` of the
printed random value — at most 8 lowercase-alphanumeric characters — and
the original extension is appended after a dot. -/
theorem C9_random_basename (frac : List Char) (nowMs : Nat)
    (name : List Char) (h : ∀ c ∈ frac, isBase36Digit c = true) :
    (randomBasename frac).length ≤ 8 ∧
    (8 ≤ frac.length → (randomBasename frac).length = 8) ∧
    (∀ c ∈ randomBasename frac, isBase36Digit c = true) ∧
    generateFilename "random" nowMs frac name =
      randomBasename frac ++ '.' :: ((jsSplitPop name).map Char.toLower) := by
  have hbase : randomBasename frac = frac.take 8 := by
    unfold randomBasename jsRandomToString36
    by_cases hf : frac = []
    · simp [hf]
    · rw [if_neg hf]
      rfl
  refine ⟨?_, ?_, ?_, ?_⟩
  · rw [hbase, List.length_take]
    exact min_le_left _ _
  · intro h8
    rw [hbase, List.length_take]
    exact min_eq_left h8
  · intro c hc
    rw [hbase] at hc
    exact h c (List.take_subset _ _ hc)
  · rfl

/-- Witness for C9 at an 8-digit fractional expansion. -/
theorem C9_random_basename_witness :
    (randomBasename "abcdefgh".data).length = 8 ∧
    generateFilename "random" 0 "abcdefgh".data "a.png".data =
      randomBasename "abcdefgh".data ++
        '.' :: ((jsSplitPop "a.png".data).map Char.toLower) := by
  have h := C9_random_basename "abcdefgh".data 0 "a.png".data (by decide)
  exact ⟨h.2.1 (by decide), h.2.2.2⟩

/-- C2 counterexample: for `"a.b.txt"` the source derives `"a.txt"`
(base name `split('.')[0]`, before the first dot), while the claim's
base name — everything before the final dot, sanitized with `.` allowed —
gives `"a.b.txt"`; the two disagree. -/
theorem C2_counterexample :
    generateFilename "original" 0 [] "a.b.txt".data = "a.txt".data ∧
    claimedOriginalFilename "a.b.txt".data = "a.b.txt".data ∧
    generateFilename "original" 0 [] "a.b.txt".data ≠
      claimedOriginalFilename "a.b.txt".data := by
  decide

/-- C2 (amended: the base name is the segment before the FIRST dot,
`split('.')[0]`, not before the final dot): under `nameRule = original`
the derived filename is the sanitized before-first-dot segment — every
character outside `[a-zA-Z0-9-_.]` replaced by `-`, dash runs collapsed,
boundary dashes trimmed — followed by a dot and the lower-cased segment
after the final dot; the derivation ignores the timestamp and random
sources (deterministic given the filename), sanitization is idempotent,
and `"My Photo!!.PNG"` yields `"My-Photo.png"`. -/
theorem C2_original_naming (name : List Char) (n1 n2 : Nat)
    (f1 f2 : List Char) :
    generateFilename "original" n1 f1 name =
      generateFilename "original" n2 f2 name ∧
    generateFilename "original" n1 f1 name =
      sanitizeBase (name.takeWhile (· ≠ '.')) ++
        '.' :: ((name.reverse.takeWhile (· ≠ '.')).reverse.map
          Char.toLower) ∧
    (∀ l : List Char, sanitizeBase (sanitizeBase l) = sanitizeBase l) ∧
    generateFilename "original" 0 [] "My Photo!!.PNG".data =
      "My-Photo.png".data := by
  refine ⟨rfl, ?_, fun l => sanitizeBase_idem l, by decide⟩
  show sanitizeBase (jsSplitFirst name) ++
      '.' :: ((jsSplitPop name).map Char.toLower) = _
  rw [jsSplitFirst, jsSplitPop, headD_splitOnChar, getLastD_splitOnChar]

/-- C10: a filename with no dot still gets an extension: the whole name,
lower-cased, is treated as the extension (for `original` the result is
the sanitized name, a dot, and the lower-cased name — `README` becomes
`README.readme`), and under every naming rule the derived filename ends
in a dot followed by that lower-cased name. -/
theorem C10_dotless_extension (name : List Char) (h : '.' ∉ name) :
    (∀ nowMs : Nat, ∀ frac : List Char,
      generateFilename "original" nowMs frac name =
        sanitizeBase name ++ '.' :: name.map Char.toLower) ∧
    (∀ rule : String, ∀ nowMs : Nat, ∀ frac : List Char,
      ∃ base : List Char, generateFilename rule nowMs frac name =
        base ++ '.' :: name.map Char.toLower) := by
  have hsplit := splitOnChar_of_not_mem h
  have hpop : jsSplitPop name = name := by
    rw [jsSplitPop, hsplit]
    rfl
  have hfirst : jsSplitFirst name = name := by
    rw [jsSplitFirst, hsplit]
    rfl
  constructor
  · intro nowMs frac
    show sanitizeBase (jsSplitFirst name) ++
        '.' :: ((jsSplitPop name).map Char.toLower) = _
    rw [hpop, hfirst]
  · intro rule nowMs frac
    refine ⟨if rule = "timestamp" then (Nat.repr nowMs).data
      else if rule = "random" then randomBasename frac
      else sanitizeBase (jsSplitFirst name), ?_⟩
    show (if rule = "timestamp" then (Nat.repr nowMs).data
      else if rule = "random" then randomBasename frac
      else sanitizeBase (jsSplitFirst name)) ++
        '.' :: ((jsSplitPop name).map Char.toLower) = _
    rw [hpop]

/-- Witness for C10 at the dotless name `README`. -/
theorem C10_dotless_extension_witness :
    generateFilename "original" 0 [] "README".data =
      "README.readme".data := by
  have h := (C10_dotless_extension "README".data (by decide)).1 0 []
  rw [h]
  decide

/-- C7: `generatePath` substitutes `{year}`, zero-padded `{month}` and
`{day}` into the template, joins template and derived filename with `/`,
then normalizes; the normalized result never contains `//` and never
starts or ends with a separator, and the template `{year}/{month}/{day}`
at 2024-03-05 resolves the directory portion to `2024/03/05`. -/
theorem C7_generate_path (cfg : ManagerConfig) (d : JsDate) (nowMs : Nat)
    (frac : List Char) (fname : List Char) :
    generatePath cfg d nowMs frac fname =
      normalizePath (substDate cfg.uploadPath d ++
        '/' :: generateFilename cfg.nameRule nowMs frac fname) ∧
    noDoubleRun '/' (generatePath cfg d nowMs frac fname) = true ∧
    (generatePath cfg d nowMs frac fname).head? ≠ some '/' ∧
    (generatePath cfg d nowMs frac fname).getLast? ≠ some '/' ∧
    substDate "{year}/{month}/{day}".data ⟨2024, 3, 5⟩ =
      "2024/03/05".data ∧
    generatePath ⟨"{year}/{month}/{day}".data, "original", [], 10⟩
        ⟨2024, 3, 5⟩ 0 [] "photo.jpg".data =
      "2024/03/05/photo.jpg".data := by
  obtain ⟨hn, hh, hl⟩ := normalizePath_props
    (substDate cfg.uploadPath d ++
      '/' :: generateFilename cfg.nameRule nowMs frac fname)
  exact ⟨rfl, hn, hh, hl, by decide, by decide⟩

/-- Witness for C7 at the claim's concrete template and date. -/
theorem C7_generate_path_witness :
    generatePath ⟨"{year}/{month}/{day}".data, "original", [], 10⟩
        ⟨2024, 3, 5⟩ 0 [] "photo.jpg".data =
      "2024/03/05/photo.jpg".data :=
  (C7_generate_path ⟨"{year}/{month}/{day}".data, "original", [], 10⟩
    ⟨2024, 3, 5⟩ 0 [] "photo.jpg".data).2.2.2.2.2

/-- C8 counterexample: `getSupportedStorages` returns only a shallow
spread copy of `STORAGE_SERVICES`; mutating the nested s3 service object
reached through the returned copy (`copy.s3.label = "hacked"`) changes
what the shared catalog itself subsequently shows, so the accessor does
not protect nested objects against caller mutation. -/
theorem C8_counterexample :
    readServiceLabel catalogHeap catalogAddr "s3" =
      some (.vstr "S3兼容存储") ∧
    readServiceLabel
        (assignProp (getSupportedStorages catalogHeap).1
          (serviceAddrOf (getSupportedStorages catalogHeap).1
            (getSupportedStorages catalogHeap).2 "s3")
          "label" (.vstr "hacked"))
        catalogAddr "s3" = some (.vstr "hacked") := by
  decide

/-- C8 (amended: the accessors return fresh top-level objects, so
top-level mutation of a returned value cannot change the shared defaults,
but the copies are shallow — mutating a nested object reached through the
returned value does change them, see the counterexample): the supported-
storage copy equals the catalog object property-for-property, lives at a
fresh address, and any top-level property assignment on the copy leaves
every pre-existing object — the catalog and all service objects —
unchanged. -/
theorem C8_shallow_copy (k : String) (v : JsVal) (a : Nat)
    (h : a < catalogHeap.length) :
    objAt (getSupportedStorages catalogHeap).1
        (getSupportedStorages catalogHeap).2 =
      objAt catalogHeap catalogAddr ∧
    (getSupportedStorages catalogHeap).2 ≠ catalogAddr ∧
    objAt (assignProp (getSupportedStorages catalogHeap).1
        (getSupportedStorages catalogHeap).2 k v) a =
      objAt (getSupportedStorages catalogHeap).1 a := by
  refine ⟨?_, by decide, ?_⟩
  · show objAt (catalogHeap ++ [objAt catalogHeap catalogAddr])
        catalogHeap.length = objAt catalogHeap catalogAddr
    rw [objAt, List.getD_eq_getElem?_getD,
      List.getElem?_append_right (le_refl _)]
    simp [objAt]
  · have hc : (getSupportedStorages catalogHeap).2 =
        catalogHeap.length := rfl
    rw [assignProp, objAt, objAt, List.getD_eq_getElem?_getD,
      List.getD_eq_getElem?_getD,
      List.getElem?_set_ne (by rw [hc]; omega)]
    rw [objAt, List.getD_eq_getElem?_getD]

/-- Witness for C8: a top-level write of the `s3` binding on the copy
leaves the shared catalog object untouched. -/
theorem C8_shallow_copy_witness :
    objAt (assignProp (getSupportedStorages catalogHeap).1
        (getSupportedStorages catalogHeap).2 "s3" (.vstr "x"))
        catalogAddr =
      objAt (getSupportedStorages catalogHeap).1 catalogAddr :=
  (C8_shallow_copy "s3" (.vstr "x") catalogAddr (by decide)).2.2

end PixRuom
